import Mathlib

/-!
Verification of the fractal-pattern generator (`src/main.py`).

The geometry kernel, the two subdivision rules, the recursive expander
`fractal`, the flattening `segments_to_points` and the stroke serializer
`points_to_stroke_d` are embedded below as Lean functions over exact
rational coordinates.  Python's floating-point numbers are modelled by ℚ:
every arithmetic operation the program performs on the inputs appearing in
this development (sums, differences, halving, and rotation by ±90°) is
exact, so ℚ reproduces the ideal real-number semantics the spec describes.

The source's `Point.left(angle)` computes `c = cos(angle)` and
`s = sin(angle)` and then applies the linear map
`(x, y) ↦ (c*x + s*y, -s*x + c*y)`.  ℚ has no transcendental `cos`/`sin`,
so the embedded `Point.left` receives the pair `(c, s)` directly; the
program's only rotation angle is `π/2`, i.e. `(c, s) = (0, 1)`
(and `right(π/2) = left(-π/2)`, i.e. `(c, s) = (0, -1)`).

Python's `==` on `Point` is object identity (the class defines no
`__eq__`); the value-level embedding here uses coordinate equality, and a
second, allocation-tagged model (`PyPoint` below) captures the identity
semantics exactly where a claim depends on it.
-/

/-- A two-dimensional point, also used as a vector (`class Point`).
Coordinates are exact rationals modelling the program's reals. -/
@[ext]
structure Point where
  x : ℚ
  y : ℚ
deriving DecidableEq, Repr

/-- Componentwise sum (`Point.__add__`). -/
def Point.add (p other : Point) : Point := ⟨p.x + other.x, p.y + other.y⟩

/-- Componentwise difference (`Point.__sub__`). -/
def Point.sub (p other : Point) : Point := ⟨p.x - other.x, p.y - other.y⟩

/-- Componentwise scalar multiple (`Point.__mul__`). -/
def Point.mul (p : Point) (other : ℚ) : Point := ⟨p.x * other, p.y * other⟩

instance : Add Point := ⟨Point.add⟩

instance : Sub Point := ⟨Point.sub⟩

instance : HMul Point ℚ Point := ⟨Point.mul⟩

/-- Rotation (`Point.left(angle)`).  The source computes `c = cos(angle)`,
`s = sin(angle)` and returns `Point(c*x + s*y, -s*x + c*y)`; the embedding
takes the pair `(c, s)` in place of the angle (see the header comment).
Every call site in the program uses `angle = π/2`, i.e. `c = 0`, `s = 1`. -/
def Point.left (p : Point) (c s : ℚ) : Point :=
  ⟨c * p.x + s * p.y, -s * p.x + c * p.y⟩

/-- Rotation the other way (`Point.right(angle) = Point.left(-angle)`);
`cos(-a) = cos a` and `sin(-a) = -sin a`, so the `(c, s)` pair is negated
in its second component. -/
def Point.right (p : Point) (c s : ℚ) : Point := p.left c (-s)

@[simp]
theorem Point.add_def (p q : Point) : p + q = ⟨p.x + q.x, p.y + q.y⟩ := rfl

@[simp]
theorem Point.sub_def (p q : Point) : p - q = ⟨p.x - q.x, p.y - q.y⟩ := rfl

@[simp]
theorem Point.mul_def (p : Point) (k : ℚ) : p * k = ⟨p.x * k, p.y * k⟩ := rfl

@[simp]
theorem Point.left_def (p : Point) (c s : ℚ) :
    p.left c s = ⟨c * p.x + s * p.y, -s * p.x + c * p.y⟩ := rfl

@[simp]
theorem Point.right_def (p : Point) (c s : ℚ) :
    p.right c s = ⟨c * p.x + -s * p.y, s * p.x + c * p.y⟩ := by
  simp [Point.right, Point.left]

/-- A line segment from one point to another (`class LineSegment`). -/
structure LineSegment where
  p1 : Point
  p2 : Point
deriving DecidableEq, Repr

/-- The side tag of a sided segment.  The source stores the strings
`"left"` / `"right"` and asserts `side in ["left", "right"]` in the
constructor, so exactly these two values occur. -/
inductive Side where
  | left : Side
  | right : Side
deriving DecidableEq, Repr

/-- A line segment that owns the area to one side (`class SidedSegment`). -/
structure SidedSegment where
  p1 : Point
  p2 : Point
  side : Side
deriving DecidableEq, Repr

/-- One step of the signature fractal rule
(`SidedSegment.up_half_across_and_down`).  `(0, 1)` stands for
`(cos (π/2), sin (π/2))` as explained in the header comment. -/
def SidedSegment.up_half_across_and_down (seg : SidedSegment) : List SidedSegment :=
  match seg.side with
  | Side.left =>
    let v_half := (seg.p2 - seg.p1) * (0.5 : ℚ)
    let v_up := v_half.left 0 1
    let p_a := seg.p1 + v_up
    let p_b := p_a + v_half
    let p_c := seg.p2 + v_up
    [⟨seg.p1, p_a, Side.right⟩,
     ⟨p_a, p_b, Side.left⟩,
     ⟨p_b, p_c, Side.left⟩,
     ⟨p_c, seg.p2, Side.right⟩]
  | Side.right =>
    let v_half := (seg.p2 - seg.p1) * (0.5 : ℚ)
    let v_down := v_half.right 0 1
    let p_a := seg.p1 + v_down
    let p_b := p_a + v_half
    let p_c := seg.p2 + v_down
    [⟨seg.p1, p_a, Side.left⟩,
     ⟨p_a, p_b, Side.right⟩,
     ⟨p_b, p_c, Side.right⟩,
     ⟨p_c, seg.p2, Side.left⟩]

/-- Recursive expansion (`fractal(elem, f, depth)`): depth 0 returns
`[elem]`; otherwise each child produced by `f` is expanded at `depth - 1`
and the results are concatenated in order
(`itertools.chain(*(fractal(e, f, depth - 1) for e in sub_elems))`).
Depth is a natural number here; the partial function the source defines on
all Python integers is `fractalFuel` below, which agrees with this one on
non-negative depths. -/
def fractal {α : Type} (elem : α) (f : α → List α) : ℕ → List α
  | 0 => [elem]
  | depth + 1 => ((f elem).map (fun e => fractal e f depth)).flatten

/-- The plain triangle rule (`left_triangle`): a there-and-back spike on
the left of the segment. -/
def left_triangle (elem : LineSegment) : List LineSegment :=
  let p1 := elem.p1
  let p2 := elem.p2
  let fwd := (p2 - p1) * (0.5 : ℚ)
  let lft := fwd.left 0 1
  let mid := p1 + fwd
  let up := mid + lft
  [⟨p1, mid⟩, ⟨mid, up⟩, ⟨up, mid⟩, ⟨mid, p2⟩]

/-- Duck-typed access to the `.p1` / `.p2` attributes that
`segments_to_points` reads off either segment class. -/
class HasEnds (α : Type) where
  p1 : α → Point
  p2 : α → Point

instance : HasEnds LineSegment := ⟨LineSegment.p1, LineSegment.p2⟩

instance : HasEnds SidedSegment := ⟨SidedSegment.p1, SidedSegment.p2⟩

/-- The pairwise check of the assertion in `segments_to_points`:
`all(a.p2 == b.p1 for (a, b) in itertools.pairwise(segments))`.
Value-level equality is used here; the source's `==` is object identity
(no `__eq__` on `Point`), which is modelled exactly by `PyPoint` below and
implies this coordinate equality. -/
def endsLinked {α : Type} [HasEnds α] : List α → Bool
  | [] => true
  | [_] => true
  | a :: b :: rest =>
    decide (HasEnds.p2 a = HasEnds.p1 b) && endsLinked (b :: rest)

/-- Flattening (`segments_to_points`): assert the connectivity of
consecutive segments, then emit the first segment's start followed by
every segment's end.  `none` models an uncaught exception: the
`AssertionError` when the pairwise check fails, or the `IndexError` of
`segments[0]` on an empty list. -/
def segments_to_points {α : Type} [HasEnds α] (segments : List α) : Option (List Point) :=
  if endsLinked segments then
    match segments with
    | [] => none
    | s :: _ => some (HasEnds.p1 s :: segments.map HasEnds.p2)
  else none

/-- Fixed-point decimal formatting of one coordinate, the `"%6.3f"`
conversion used by `Point.as_string_with_comma`: three digits after the
point, right-aligned with spaces to a minimum width of six characters.
Rounding at the third decimal uses `round` (half away from floor); no
value formatted in this development lies at a rounding tie. -/
def formatFixed (q : ℚ) : String :=
  let scaled : ℤ := round (q * 1000)
  let sign : String := if scaled < 0 then "-" else ""
  let m : ℕ := scaled.natAbs
  let intDigits : String := toString (m / 1000)
  let fracRaw : String := toString (m % 1000)
  let fracDigits : String :=
    String.mk (List.replicate (3 - fracRaw.length) '0') ++ fracRaw
  let core : String := sign ++ intDigits ++ "." ++ fracDigits
  String.mk (List.replicate (6 - core.length) ' ') ++ core

/-- Coordinate pair formatting (`Point.as_string_with_comma`):
`"%6.3f,%6.3f" % (x, y)`. -/
def Point.as_string_with_comma (p : Point) : String :=
  formatFixed p.x ++ "," ++ formatFixed p.y

/-- Stroke serialization (`points_to_stroke_d`): start `parts` with
`["M", points[0]]`, then the loop `for p in points` appends `"L"` and the
formatted point for every element of `points` — including `points[0]`
again — and the parts are joined with single spaces.  `none` models the
`IndexError` of `points[0]` on an empty list. -/
def points_to_stroke_d (points : List Point) : Option String :=
  match points with
  | [] => none
  | p0 :: _ =>
    let parts := ["M", p0.as_string_with_comma]
    let parts := points.foldl (fun acc p => acc ++ ["L", p.as_string_with_comma]) parts
    some (String.intercalate " " parts)

/-- The seed segment built in `make_pattern`:
`SidedSegment(Point(0, 100), Point(100, 100), "left")`. -/
def make_pattern_init : SidedSegment := ⟨⟨0, 100⟩, ⟨100, 100⟩, Side.left⟩

/-- Expansion on an arbitrary integer depth, with an explicit recursion
budget (`fuel`) modelling the Python call stack.  The source's `fractal`
tests `depth == 0` and otherwise recurses at `depth - 1` with no other
guard, so a negative depth never reaches the base case; exhausting `fuel`
returns `Except.error "RecursionError"`, the exception CPython raises when
the recursion limit is hit.  Like the Python generator expression, the
children are expanded left to right and the first exception propagates. -/
def fractalFuel {α : Type} (f : α → List α) : ℕ → α → ℤ → Except String (List α)
  | 0, _, _ => Except.error "RecursionError"
  | fuel + 1, elem, depth =>
    if depth = 0 then Except.ok [elem]
    else do
      let subLists ← (f elem).mapM (fun e => fractalFuel f fuel e (depth - 1))
      Except.ok subLists.flatten

/-! ## Connectivity machinery -/

/-- The connectivity invariant on a list of segments: every consecutive
pair chains end to start. -/
def Chained {α : Type} [HasEnds α] (l : List α) : Prop :=
  List.Chain' (fun a b => HasEnds.p2 a = HasEnds.p1 b) l

@[simp]
theorem hasEnds_line_p1 (s : LineSegment) : HasEnds.p1 s = s.p1 := rfl

@[simp]
theorem hasEnds_line_p2 (s : LineSegment) : HasEnds.p2 s = s.p2 := rfl

@[simp]
theorem hasEnds_sided_p1 (s : SidedSegment) : HasEnds.p1 s = s.p1 := rfl

@[simp]
theorem hasEnds_sided_p2 (s : SidedSegment) : HasEnds.p2 s = s.p2 := rfl

theorem endsLinked_iff_chained {α : Type} [HasEnds α] :
    ∀ l : List α, endsLinked l = true ↔ Chained l
  | [] => by simp [endsLinked, Chained]
  | [a] => by simp [endsLinked, Chained]
  | a :: b :: r => by
    rw [Chained, List.chain'_cons, endsLinked, Bool.and_eq_true, decide_eq_true_eq]
    exact and_congr Iff.rfl (endsLinked_iff_chained (b :: r))

/-- The rule contract of the spec, as satisfied by one application of a
rule: at least one child, children chain consecutively, the first child
starts at the input's start and the last child ends at the input's end. -/
structure RuleOK {α : Type} [HasEnds α] (f : α → List α) : Prop where
  children_ne_nil : ∀ e, f e ≠ []
  children_chained : ∀ e, Chained (f e)
  head_p1 : ∀ e, (f e).head?.map HasEnds.p1 = some (HasEnds.p1 e)
  last_p2 : ∀ e, (f e).getLast?.map HasEnds.p2 = some (HasEnds.p2 e)

theorem flatten_head?_of_ne_nil {β : Type} {a : List β} (L : List (List β))
    (h : a ≠ []) : (a :: L).flatten.head? = a.head? := by
  obtain ⟨x, t, rfl⟩ := List.exists_cons_of_ne_nil h
  simp

theorem flatten_getLast?_of_getLast? {β : Type} :
    ∀ {L : List (List β)} {l : List β}, L.getLast? = some l → l ≠ [] →
      L.flatten.getLast? = l.getLast? := by
  intro L
  induction L with
  | nil => intro l h _; simp at h
  | cons a L ih =>
    intro l hl hne
    cases L with
    | nil =>
      simp at hl
      subst hl
      simp
    | cons b L2 =>
      rw [List.getLast?_cons_cons] at hl
      have hrec := ih hl hne
      have hflat : (a :: b :: L2).flatten = a ++ (b :: L2).flatten := rfl
      rw [hflat, List.getLast?_append, hrec]
      obtain ⟨x, hx⟩ := Option.isSome_iff_exists.mp (List.getLast?_isSome.mpr hne)
      rw [hx]
      rfl

/-- The master induction: for any rule satisfying the rule contract, the
expansion at every depth is nonempty, chained, starts at the input's start
and ends at the input's end. -/
theorem fractal_invariants {α : Type} [HasEnds α] {f : α → List α} (hf : RuleOK f) :
    ∀ (d : ℕ) (e : α),
      fractal e f d ≠ [] ∧ Chained (fractal e f d) ∧
      (fractal e f d).head?.map HasEnds.p1 = some (HasEnds.p1 e) ∧
      (fractal e f d).getLast?.map HasEnds.p2 = some (HasEnds.p2 e) := by
  intro d
  induction d with
  | zero =>
    intro e
    refine ⟨by simp [fractal], by simp [fractal, Chained], by simp [fractal], by simp [fractal]⟩
  | succ d ih =>
    intro e
    have hne : ∀ c, fractal c f d ≠ [] := fun c => (ih c).1
    have hnil : [] ∉ (f e).map (fun c => fractal c f d) := by
      intro h
      obtain ⟨c, _, hc⟩ := List.mem_map.mp h
      exact hne c hc
    have hstep : fractal e f (d + 1) = ((f e).map (fun c => fractal c f d)).flatten := rfl
    constructor
    · -- nonempty
      rw [hstep]
      intro hempty
      obtain ⟨c0, cs, hfe⟩ := List.exists_cons_of_ne_nil (hf.children_ne_nil e)
      have : fractal c0 f d = [] := by
        have hmem : fractal c0 f d ∈ ((f e).map (fun c => fractal c f d)) := by
          rw [hfe]; exact List.mem_cons_self _ _
        have hsub := List.flatten_eq_nil_iff.mp hempty
        exact hsub _ hmem
      exact hne c0 this
    constructor
    · -- chained
      rw [hstep, Chained, List.chain'_flatten hnil]
      constructor
      · intro l hl
        obtain ⟨c, _, rfl⟩ := List.mem_map.mp hl
        exact (ih c).2.1
      · rw [List.chain'_map]
        refine (hf.children_chained e).imp ?_
        intro a b hab x hx y hy
        obtain ⟨va, hva, hpa⟩ := Option.map_eq_some'.mp (ih a).2.2.2
        obtain ⟨vb, hvb, hpb⟩ := Option.map_eq_some'.mp (ih b).2.2.1
        rw [hva] at hx
        rw [hvb] at hy
        cases hx
        cases hy
        rw [hpa, hpb]
        exact hab
    constructor
    · -- head
      obtain ⟨c0, cs, hfe⟩ := List.exists_cons_of_ne_nil (hf.children_ne_nil e)
      have hp1 : HasEnds.p1 c0 = HasEnds.p1 e := by
        have := hf.head_p1 e
        rw [hfe] at this
        simpa using this
      rw [hstep, hfe]
      have : ((c0 :: cs).map (fun c => fractal c f d)) =
          fractal c0 f d :: cs.map (fun c => fractal c f d) := rfl
      rw [this, flatten_head?_of_ne_nil _ (hne c0)]
      have := (ih c0).2.2.1
      rw [this, hp1]
    · -- last
      obtain ⟨cl, hcl, hp2⟩ := Option.map_eq_some'.mp (hf.last_p2 e)
      have hmapLast : ((f e).map (fun c => fractal c f d)).getLast? =
          some (fractal cl f d) := by
        rw [List.getLast?_map, hcl]
        rfl
      rw [hstep, flatten_getLast?_of_getLast? hmapLast (hne cl)]
      rw [(ih cl).2.2.2, hp2]

theorem sum_map_of_const {β : Type} (n : ℕ) :
    ∀ (l : List β) (g : β → ℕ), (∀ x ∈ l, g x = n) → (l.map g).sum = l.length * n := by
  intro l
  induction l with
  | nil => intro g _; simp
  | cons a t ih =>
    intro g h
    have ha := h a (List.mem_cons_self a t)
    have ht := ih g (fun x hx => h x (List.mem_cons_of_mem a hx))
    simp [ha, ht]
    ring

/-- Growth of the expansion: a rule producing exactly four children per
segment yields `4 ^ d` segments at depth `d`. -/
theorem fractal_length {α : Type} {f : α → List α} (hlen : ∀ e, (f e).length = 4) :
    ∀ (d : ℕ) (e : α), (fractal e f d).length = 4 ^ d := by
  intro d
  induction d with
  | zero => intro e; simp [fractal]
  | succ d ih =>
    intro e
    have hstep : fractal e f (d + 1) = ((f e).map (fun c => fractal c f d)).flatten := rfl
    rw [hstep, List.length_flatten, List.map_map]
    have hs := sum_map_of_const (4 ^ d) (f e) (List.length ∘ fun c => fractal c f d)
      (fun c _ => ih c)
    rw [hs, hlen e]
    ring

/-! ## The two named rules satisfy the rule contract -/

theorem up_half_across_and_down_ruleOK : RuleOK SidedSegment.up_half_across_and_down := by
  constructor
  · intro e
    obtain ⟨p1, p2, side⟩ := e
    cases side <;> simp [SidedSegment.up_half_across_and_down]
  · intro e
    obtain ⟨p1, p2, side⟩ := e
    cases side <;>
      simp [SidedSegment.up_half_across_and_down, Chained, List.chain'_cons]
  · intro e
    obtain ⟨p1, p2, side⟩ := e
    cases side <;> simp [SidedSegment.up_half_across_and_down]
  · intro e
    obtain ⟨p1, p2, side⟩ := e
    cases side <;> simp [SidedSegment.up_half_across_and_down]

theorem up_half_across_and_down_length (e : SidedSegment) :
    (SidedSegment.up_half_across_and_down e).length = 4 := by
  obtain ⟨p1, p2, side⟩ := e
  cases side <;> rfl

theorem left_triangle_ruleOK : RuleOK left_triangle := by
  constructor
  · intro e; simp [left_triangle]
  · intro e; simp [left_triangle, Chained, List.chain'_cons]
  · intro e; simp [left_triangle]
  · intro e; simp [left_triangle]

theorem left_triangle_length (e : LineSegment) : (left_triangle e).length = 4 := rfl

/-! ## Flattening a conforming expansion -/

/-- Packaged behaviour of `segments_to_points` on any expansion of a rule
satisfying the rule contract: the assertion passes and the resulting point
list has one point more than there are segments, starts at the input's
start and ends at the input's end. -/
theorem segments_to_points_fractal {α : Type} [HasEnds α] {f : α → List α}
    (hf : RuleOK f) (e : α) (d : ℕ) :
    ∃ pts : List Point,
      segments_to_points (fractal e f d) = some pts ∧
      pts.length = (fractal e f d).length + 1 ∧
      pts.head? = some (HasEnds.p1 e) ∧
      pts.getLast? = some (HasEnds.p2 e) := by
  obtain ⟨hne, hchain, hhead, hlast⟩ := fractal_invariants hf d e
  obtain ⟨s, rest, hcons⟩ := List.exists_cons_of_ne_nil hne
  refine ⟨HasEnds.p1 s :: (s :: rest).map HasEnds.p2, ?_, ?_, ?_, ?_⟩
  · rw [hcons, segments_to_points,
      if_pos ((endsLinked_iff_chained _).mpr (hcons ▸ hchain))]
  · rw [hcons]
    simp
  · have : HasEnds.p1 s = HasEnds.p1 e := by
      rw [hcons] at hhead
      simpa using hhead
    simp [this]
  · rw [hcons] at hlast
    have hmap : ((s :: rest).map HasEnds.p2).getLast? = some (HasEnds.p2 e) := by
      rw [List.getLast?_map]
      exact hlast
    have hcc : (HasEnds.p1 s :: (s :: rest).map HasEnds.p2).getLast? =
        ((s :: rest).map HasEnds.p2).getLast? := by
      rw [List.map_cons, List.getLast?_cons_cons]
    rw [hcc, hmap]

/-! ## Spec-side description of the signature rule (for the refinement claim) -/

/-- Rotation left by 90°, written from the spec's words: under the stated
screen-style sign convention, `rotateLeft((x, y), 90°) = (y, -x)` (the
spec's own example is `rotateLeft((1, 0), π/2) ≈ (0, -1)`).  Used only to
state the refinement theorem for `up_half_across_and_down`. -/
def rot90Left (v : Point) : Point := ⟨v.y, -v.x⟩

/-- Rotation right by 90°, written from the spec's words:
`rotateRight(v, θ) = rotateLeft(v, -θ)`, so `(x, y) ↦ (-y, x)`. -/
def rot90Right (v : Point) : Point := ⟨-v.y, v.x⟩

/-- The side-owning rule as §4.2 of the spec describes it, step by step:
`v_half` is half the start-to-end vector, `v_up` (`v_down`) is `v_half`
rotated left (right) by 90°, the interior points are `a = start + v_up`,
`b = a + v_half`, `c = end + v_up`, and the four children carry sides
`right, left, left, right` for a `left` input and `left, right, right,
left` for a `right` input.  This is the spec's wording, kept separate from
the source translation `SidedSegment.up_half_across_and_down` so that the
two can be compared. -/
def upRuleSpec (seg : SidedSegment) : List SidedSegment :=
  match seg.side with
  | Side.left =>
    let v_half := (seg.p2 - seg.p1) * (0.5 : ℚ)
    let v_up := rot90Left v_half
    let a := seg.p1 + v_up
    let b := a + v_half
    let c := seg.p2 + v_up
    [⟨seg.p1, a, Side.right⟩, ⟨a, b, Side.left⟩,
     ⟨b, c, Side.left⟩, ⟨c, seg.p2, Side.right⟩]
  | Side.right =>
    let v_half := (seg.p2 - seg.p1) * (0.5 : ℚ)
    let v_down := rot90Right v_half
    let a := seg.p1 + v_down
    let b := a + v_half
    let c := seg.p2 + v_down
    [⟨seg.p1, a, Side.left⟩, ⟨a, b, Side.right⟩,
     ⟨b, c, Side.right⟩, ⟨c, seg.p2, Side.left⟩]

/-! ## Claim theorems -/

/-- Claim C1: for every sided segment, `up_half_across_and_down` returns
exactly the four children the spec constructs — for side `left` from
`v_half` and `v_up = v_half` rotated left by 90° with interior points
`a = start + v_up`, `b = a + v_half`, `c = end + v_up` and sides
`right, left, left, right`; for side `right` the mirrored construction
with `v_down` and sides `left, right, right, left`.  The second conjunct
checks the spec's concrete instance: start `(0,0)`, end `(100,0)`, side
`left` gives `a = (0,-50)`, `b = (50,-50)`, `c = (100,-50)` and sides
`right, left, left, right`. -/
theorem up_half_across_and_down_matches_spec :
    (∀ seg : SidedSegment, seg.up_half_across_and_down = upRuleSpec seg) ∧
    SidedSegment.up_half_across_and_down ⟨⟨0, 0⟩, ⟨100, 0⟩, Side.left⟩ =
      [⟨⟨0, 0⟩, ⟨0, -50⟩, Side.right⟩, ⟨⟨0, -50⟩, ⟨50, -50⟩, Side.left⟩,
       ⟨⟨50, -50⟩, ⟨100, -50⟩, Side.left⟩, ⟨⟨100, -50⟩, ⟨100, 0⟩, Side.right⟩] := by
  constructor
  · intro seg
    obtain ⟨p1, p2, side⟩ := seg
    cases side <;>
      simp [SidedSegment.up_half_across_and_down, upRuleSpec, rot90Left, rot90Right,
        Point.ext_iff]
  · simp [SidedSegment.up_half_across_and_down, Point.ext_iff]
    norm_num

/-- Claim C2: for every depth `d ≥ 0` and every input segment, the
expansion under either named rule satisfies the connectivity invariant:
any two consecutive segments `A`, `B` in the output have `A`'s end equal
to `B`'s start. -/
theorem fractal_connectivity :
    (∀ (d : ℕ) (seg : SidedSegment),
        Chained (fractal seg SidedSegment.up_half_across_and_down d)) ∧
    (∀ (d : ℕ) (seg : LineSegment), Chained (fractal seg left_triangle d)) :=
  ⟨fun d seg => (fractal_invariants up_half_across_and_down_ruleOK d seg).2.1,
   fun d seg => (fractal_invariants left_triangle_ruleOK d seg).2.1⟩

/-- Claim C3: for every rule satisfying the rule contract, every input
segment and every depth `d ≥ 0`, the flattened expansion's first point is
the input's start and its last point is the input's end. -/
theorem fractal_endpoint_preservation {α : Type} [HasEnds α] {f : α → List α}
    (hf : RuleOK f) (seg : α) (d : ℕ) :
    ∃ pts : List Point,
      segments_to_points (fractal seg f d) = some pts ∧
      pts.head? = some (HasEnds.p1 seg) ∧
      pts.getLast? = some (HasEnds.p2 seg) := by
  obtain ⟨pts, hs, _, hh, hl⟩ := segments_to_points_fractal hf seg d
  exact ⟨pts, hs, hh, hl⟩

/-- Witness for claim C3: the triangle rule on the segment from `(0,0)`
to `(10,0)` at depth 1, flattened, runs start to end. -/
theorem fractal_endpoint_preservation_witness :
    ∃ pts : List Point,
      segments_to_points (fractal (LineSegment.mk ⟨0, 0⟩ ⟨10, 0⟩) left_triangle 1)
        = some pts ∧
      pts.head? = some ⟨0, 0⟩ ∧
      pts.getLast? = some ⟨10, 0⟩ :=
  fractal_endpoint_preservation left_triangle_ruleOK ⟨⟨0, 0⟩, ⟨10, 0⟩⟩ 1

/-- Claim C4: the `make_pattern` scenario — seed `(0,100) → (100,100)`
with side `left`, rule `up_half_across_and_down`, depth 6 — flattens to
exactly `4^6 + 1 = 4097` points, the first being `(0,100)` and the last
`(100,100)`, with the connectivity invariant holding throughout. -/
theorem make_pattern_depth6_scenario :
    ∃ pts : List Point,
      segments_to_points
          (fractal make_pattern_init SidedSegment.up_half_across_and_down 6) = some pts ∧
      pts.length = 4 ^ 6 + 1 ∧ pts.length = 4097 ∧
      pts.head? = some ⟨0, 100⟩ ∧
      pts.getLast? = some ⟨100, 100⟩ ∧
      Chained (fractal make_pattern_init SidedSegment.up_half_across_and_down 6) := by
  obtain ⟨pts, hs, hlen, hh, hl⟩ :=
    segments_to_points_fractal up_half_across_and_down_ruleOK make_pattern_init 6
  have hseg := fractal_length up_half_across_and_down_length 6 make_pattern_init
  refine ⟨pts, hs, ?_, ?_, hh, hl,
    (fractal_invariants up_half_across_and_down_ruleOK 6 make_pattern_init).2.1⟩
  · rw [hlen, hseg]
  · rw [hlen, hseg]
    norm_num

/-- Claim C5: for every depth `d ≥ 0` and every input segment, either
named rule expands to exactly `4^d` segments, and flattening that output
yields exactly `4^d + 1` points. -/
theorem fractal_growth_law :
    (∀ (d : ℕ) (seg : SidedSegment),
        (fractal seg SidedSegment.up_half_across_and_down d).length = 4 ^ d ∧
        ∃ pts : List Point,
          segments_to_points (fractal seg SidedSegment.up_half_across_and_down d)
            = some pts ∧ pts.length = 4 ^ d + 1) ∧
    (∀ (d : ℕ) (seg : LineSegment),
        (fractal seg left_triangle d).length = 4 ^ d ∧
        ∃ pts : List Point,
          segments_to_points (fractal seg left_triangle d) = some pts ∧
          pts.length = 4 ^ d + 1) := by
  constructor
  · intro d seg
    have hlen := fractal_length up_half_across_and_down_length d seg
    obtain ⟨pts, hs, hplen, _, _⟩ :=
      segments_to_points_fractal up_half_across_and_down_ruleOK seg d
    exact ⟨hlen, pts, hs, by rw [hplen, hlen]⟩
  · intro d seg
    have hlen := fractal_length left_triangle_length d seg
    obtain ⟨pts, hs, hplen, _, _⟩ :=
      segments_to_points_fractal left_triangle_ruleOK seg d
    exact ⟨hlen, pts, hs, by rw [hplen, hlen]⟩

/-- Claim C6: for every rule and every element, expansion at depth 0
returns exactly the one-element sequence holding the input, unchanged. -/
theorem fractal_depth_zero_identity {α : Type} (f : α → List α) (elem : α) :
    fractal elem f 0 = [elem] := rfl

/-! ## Negative depth -/

/-- Counterexample to claim C7 as stated: `fractal` contains no check of
its own on `depth` — called at depth `-1` it simply recurses, and the run
ends in the recursion-limit error (`fractalFuel` returns the
`RecursionError` sentinel whatever the budget; here budget 12), instead of
an explicit rejection of the negative argument.  The remaining conjuncts
record that negative depth is not silently treated as depth 0: depth 0
returns `[seed]` within the same budget, depth `-1` does not. -/
theorem fractal_negative_depth_counterexample :
    fractalFuel SidedSegment.up_half_across_and_down 12 make_pattern_init (-1) =
      Except.error "RecursionError" ∧
    fractalFuel SidedSegment.up_half_across_and_down 12 make_pattern_init (-1) ≠
      Except.ok [make_pattern_init] ∧
    fractalFuel SidedSegment.up_half_across_and_down 12 make_pattern_init 0 =
      Except.ok [make_pattern_init] := by
  refine ⟨rfl, fun h => ?_, rfl⟩
  have : Except.error (α := List SidedSegment) "RecursionError" =
      Except.ok [make_pattern_init] := h
  exact Except.noConfusion this

/-- Claim C7, amended: called with a negative depth and any rule that
produces at least one child per segment, `fractal` recurses indefinitely —
for every recursion budget the base case is never reached and the run ends
only in the recursion-limit error.  It neither rejects the negative depth
explicitly (the source has no such check) nor treats it as depth zero. -/
theorem fractal_negative_depth_diverges {α : Type} {f : α → List α}
    (hne : ∀ e, f e ≠ []) :
    ∀ (fuel : ℕ) (elem : α) (depth : ℤ), depth < 0 →
      fractalFuel f fuel elem depth = Except.error "RecursionError" := by
  intro fuel
  induction fuel with
  | zero => intro elem depth _; rfl
  | succ fuel ih =>
    intro elem depth hdep
    rw [fractalFuel, if_neg (by omega)]
    obtain ⟨c0, cs, hfe⟩ := List.exists_cons_of_ne_nil (hne elem)
    rw [hfe]
    have h0 := ih c0 (depth - 1) (by omega)
    simp [List.mapM, List.mapM.loop, h0]
    rfl

/-- Witness for the amended claim C7: the signature rule at depth `-1`
from the `make_pattern` seed, with recursion budget 40, ends in the
recursion-limit error. -/
theorem fractal_negative_depth_diverges_witness :
    fractalFuel SidedSegment.up_half_across_and_down 40 make_pattern_init (-1) =
      Except.error "RecursionError" :=
  fractal_negative_depth_diverges
    up_half_across_and_down_ruleOK.children_ne_nil 40 make_pattern_init (-1)
    (by decide)

/-! ## Stroke-path serialization -/

/-- The serializer contract as §6 of the spec words it: a "move to" for
the first point followed by one "line to" for each *subsequent* point.
Kept separate from the source translation `points_to_stroke_d` so the two
can be compared. -/
def points_to_stroke_d_spec (points : List Point) : Option String :=
  match points with
  | [] => none
  | p0 :: rest =>
    some (String.intercalate " "
      (["M", p0.as_string_with_comma] ++
        rest.flatMap (fun p => ["L", p.as_string_with_comma])))

theorem foldl_append_parts {β : Type} (g : β → List String) :
    ∀ (l : List β) (acc : List String),
      l.foldl (fun a p => a ++ g p) acc = acc ++ l.flatMap g := by
  intro l
  induction l with
  | nil => intro acc; simp
  | cons a t ih => intro acc; simp [ih]

theorem formatFixed_zero : formatFixed 0 = " 0.000" := by
  have h : round ((0 : ℚ) * 1000) = 0 := by norm_num [round_eq]
  simp [formatFixed, h]
  decide

theorem formatFixed_ten : formatFixed 10 = "10.000" := by
  have h : round ((10 : ℚ) * 1000) = 10000 := by norm_num [round_eq]
  simp [formatFixed, h]
  decide

/-- Counterexample to claim C8 as stated: on the two-point sequence
`[(0,0), (10,0)]` the program's output is not the spec's "move to the
first point, then line to each subsequent point" — the loop in
`points_to_stroke_d` runs over *all* points, so the first point is
repeated as an extra `L` command right after the `M`. -/
theorem points_to_stroke_d_counterexample :
    points_to_stroke_d [⟨0, 0⟩, ⟨10, 0⟩] ≠ points_to_stroke_d_spec [⟨0, 0⟩, ⟨10, 0⟩] ∧
    points_to_stroke_d [⟨0, 0⟩, ⟨10, 0⟩] =
      some "M  0.000, 0.000 L  0.000, 0.000 L 10.000, 0.000" ∧
    points_to_stroke_d_spec [⟨0, 0⟩, ⟨10, 0⟩] =
      some "M  0.000, 0.000 L 10.000, 0.000" := by
  have h1 : (Point.mk 0 0).as_string_with_comma = " 0.000, 0.000" := by
    rw [Point.as_string_with_comma]
    rw [show (Point.mk 0 0).x = 0 from rfl, show (Point.mk 0 0).y = 0 from rfl]
    rw [formatFixed_zero]
    rfl
  have h2 : (Point.mk 10 0).as_string_with_comma = "10.000, 0.000" := by
    rw [Point.as_string_with_comma]
    rw [show (Point.mk 10 0).x = 10 from rfl, show (Point.mk 10 0).y = 0 from rfl]
    rw [formatFixed_ten, formatFixed_zero]
    rfl
  refine ⟨?_, ?_, ?_⟩ <;>
    simp [points_to_stroke_d, points_to_stroke_d_spec, h1, h2] <;>
    decide

/-- Claim C8, amended: for every non-empty point sequence, the
stroke-path string is a "move to" command for the first point followed by
one "line to" command for **every point of the sequence, the first
included** (the first point is repeated as a zero-length "line to"), in
order, with no other commands. -/
theorem points_to_stroke_d_amended (p0 : Point) (rest : List Point) :
    points_to_stroke_d (p0 :: rest) =
      some (String.intercalate " "
        (["M", p0.as_string_with_comma] ++
          (p0 :: rest).flatMap (fun p => ["L", p.as_string_with_comma]))) := by
  rw [points_to_stroke_d]
  rw [foldl_append_parts (fun p => ["L", p.as_string_with_comma]) (p0 :: rest)]

/-! ## The triangle-rule retrace -/

theorem left_triangle_unit_eval :
    segments_to_points (fractal (LineSegment.mk ⟨0, 0⟩ ⟨10, 0⟩) left_triangle 1) =
      some [⟨0, 0⟩, ⟨5, 0⟩, ⟨5, -5⟩, ⟨5, 0⟩, ⟨10, 0⟩] := by
  have hfr : fractal (LineSegment.mk ⟨0, 0⟩ ⟨10, 0⟩) left_triangle 1 =
      [⟨⟨0, 0⟩, ⟨5, 0⟩⟩, ⟨⟨5, 0⟩, ⟨5, -5⟩⟩, ⟨⟨5, -5⟩, ⟨5, 0⟩⟩, ⟨⟨5, 0⟩, ⟨10, 0⟩⟩] := by
    show ((left_triangle ⟨⟨0, 0⟩, ⟨10, 0⟩⟩).map (fun e => fractal e left_triangle 0)).flatten = _
    simp [left_triangle, fractal, Point.ext_iff]
    norm_num
  rw [hfr, segments_to_points]
  norm_num [endsLinked, Point.ext_iff]

/-- Counterexample to claim C9 as stated: applying `left_triangle` once
to the segment `(0,0) → (10,0)` and flattening does *not* give the point
sequence `[(0,0), (5,0), (5,5), (5,0), (10,0)]` — under the program's
screen-style rotation convention (y growing downward, so `rotateLeft` of
`(5,0)` by 90° is `(0,-5)`) the spike's tip is `(5,-5)`, not `(5,5)`. -/
theorem left_triangle_retrace_counterexample :
    segments_to_points (fractal (LineSegment.mk ⟨0, 0⟩ ⟨10, 0⟩) left_triangle 1) ≠
      some [⟨0, 0⟩, ⟨5, 0⟩, ⟨5, 5⟩, ⟨5, 0⟩, ⟨10, 0⟩] := by
  rw [left_triangle_unit_eval]
  simp [Point.ext_iff]
  intro h
  norm_num at h

/-- Claim C9, amended: applying `left_triangle` once to the segment from
`(0,0)` to `(10,0)` and flattening yields exactly
`[(0,0), (5,0), (5,-5), (5,0), (10,0)]` — the retrace spike with its tip
at `(5,-5)` under the stated sign convention. -/
theorem left_triangle_retrace_amended :
    segments_to_points (fractal (LineSegment.mk ⟨0, 0⟩ ⟨10, 0⟩) left_triangle 1) =
      some [⟨0, 0⟩, ⟨5, 0⟩, ⟨5, -5⟩, ⟨5, 0⟩, ⟨10, 0⟩] :=
  left_triangle_unit_eval

/-! ## The identity semantics of `==` on points

`Point` defines no `__eq__`, so Python compares points with default
object equality — reference identity.  `PyPoint` tags coordinates with
the allocation identity `addr` of the object; distinct constructor calls
yield distinct addresses even for equal coordinates. -/

/-- A Python `Point` object: its coordinates plus its object identity. -/
structure PyPoint where
  addr : ℕ
  x : ℚ
  y : ℚ
deriving DecidableEq, Repr

/-- The `==` the program applies to points, in particular inside the
flattening assertion of `segments_to_points`: with no `__eq__` on the
class, CPython falls back to identity comparison of the two objects. -/
def pyPointEq (p q : PyPoint) : Bool := p.addr == q.addr

/-- A `SidedSegment` object holding references to its two endpoint
objects. -/
structure PySidedSegment where
  p1 : PyPoint
  p2 : PyPoint
  side : Side
deriving DecidableEq, Repr

/-- The signature rule on point objects, threading an allocation counter:
the three interior points are fresh objects (addresses `n`, `n + 1`,
`n + 2`), while `seg.p1` and `seg.p2` are reused by reference in the
first and last child, and each interior object is shared by the two
children adjacent to it — exactly the sharing the source's
`up_half_across_and_down` produces.  The arithmetic temporaries
(`v_half`, `v_up` / `v_down`) are also fresh objects in Python but are
never stored in a segment, so they carry no address here. -/
def up_half_py (seg : PySidedSegment) (n : ℕ) : List PySidedSegment × ℕ :=
  match seg.side with
  | Side.left =>
    let v_half : Point := (Point.mk seg.p2.x seg.p2.y - Point.mk seg.p1.x seg.p1.y) * (0.5 : ℚ)
    let v_up : Point := v_half.left 0 1
    let p_a : PyPoint := ⟨n, seg.p1.x + v_up.x, seg.p1.y + v_up.y⟩
    let p_b : PyPoint := ⟨n + 1, p_a.x + v_half.x, p_a.y + v_half.y⟩
    let p_c : PyPoint := ⟨n + 2, seg.p2.x + v_up.x, seg.p2.y + v_up.y⟩
    ([⟨seg.p1, p_a, Side.right⟩, ⟨p_a, p_b, Side.left⟩,
      ⟨p_b, p_c, Side.left⟩, ⟨p_c, seg.p2, Side.right⟩], n + 3)
  | Side.right =>
    let v_half : Point := (Point.mk seg.p2.x seg.p2.y - Point.mk seg.p1.x seg.p1.y) * (0.5 : ℚ)
    let v_down : Point := v_half.right 0 1
    let p_a : PyPoint := ⟨n, seg.p1.x + v_down.x, seg.p1.y + v_down.y⟩
    let p_b : PyPoint := ⟨n + 1, p_a.x + v_half.x, p_a.y + v_half.y⟩
    let p_c : PyPoint := ⟨n + 2, seg.p2.x + v_down.x, seg.p2.y + v_down.y⟩
    ([⟨seg.p1, p_a, Side.left⟩, ⟨p_a, p_b, Side.right⟩,
      ⟨p_b, p_c, Side.right⟩, ⟨p_c, seg.p2, Side.left⟩], n + 3)

/-- Sequential expansion of a list of elements under an
allocation-threading rule: each element is expanded in turn (this is the
left-to-right evaluation of the source's
`itertools.chain(*(fractal(e, f, depth - 1) for e in sub_elems))`),
passing the allocation counter along. -/
def expandChain {α : Type} (g : α → ℕ → List α × ℕ) : List α → ℕ → List α × ℕ
  | [], n => ([], n)
  | c :: cs, n =>
    ((g c n).1 ++ (expandChain g cs (g c n).2).1, (expandChain g cs (g c n).2).2)

/-- `fractal` over the object model, threading the allocation counter. -/
def fractalPy {α : Type} (f : α → ℕ → List α × ℕ) : ℕ → α → ℕ → List α × ℕ
  | 0, e, n => ([e], n)
  | d + 1, e, n => expandChain (fun c m => fractalPy f d c m) (f e n).1 (f e n).2

/-- Rule contract in the object model: children are produced nonempty,
consecutive children share their adjacent endpoint *object*, and the
outer endpoints are the input's own endpoint objects. -/
structure PyRuleOK (f : PySidedSegment → ℕ → List PySidedSegment × ℕ) : Prop where
  children_ne_nil : ∀ e n, (f e n).1 ≠ []
  children_chained : ∀ e n, List.Chain' (fun a b => a.p2 = b.p1) (f e n).1
  head_p1 : ∀ e n, ((f e n).1.head?).map PySidedSegment.p1 = some e.p1
  last_p2 : ∀ e n, ((f e n).1.getLast?).map PySidedSegment.p2 = some e.p2

theorem up_half_py_ruleOK : PyRuleOK up_half_py := by
  constructor
  · intro e n
    obtain ⟨p1, p2, side⟩ := e
    cases side <;> simp [up_half_py]
  · intro e n
    obtain ⟨p1, p2, side⟩ := e
    cases side <;> simp [up_half_py, List.chain'_cons]
  · intro e n
    obtain ⟨p1, p2, side⟩ := e
    cases side <;> simp [up_half_py]
  · intro e n
    obtain ⟨p1, p2, side⟩ := e
    cases side <;> simp [up_half_py]
theorem expandChain_invariants {g : PySidedSegment → ℕ → List PySidedSegment × ℕ}
    (hg : ∀ (c : PySidedSegment) (m : ℕ),
      (g c m).1 ≠ [] ∧
      List.Chain' (fun a b => a.p2 = b.p1) (g c m).1 ∧
      ((g c m).1.head?).map PySidedSegment.p1 = some c.p1 ∧
      ((g c m).1.getLast?).map PySidedSegment.p2 = some c.p2) :
    ∀ (cs : List PySidedSegment) (m : ℕ), cs ≠ [] →
      List.Chain' (fun a b => a.p2 = b.p1) cs →
      (expandChain g cs m).1 ≠ [] ∧
      List.Chain' (fun a b => a.p2 = b.p1) (expandChain g cs m).1 ∧
      ((expandChain g cs m).1.head?).map PySidedSegment.p1 =
        (cs.head?).map PySidedSegment.p1 ∧
      ((expandChain g cs m).1.getLast?).map PySidedSegment.p2 =
        (cs.getLast?).map PySidedSegment.p2 := by
  intro cs
  induction cs with
  | nil => intro m h; exact absurd rfl h
  | cons c cs ih =>
    intro m _ hchain
    cases cs with
    | nil =>
      obtain ⟨h1, h2, h3, h4⟩ := hg c m
      refine ⟨?_, ?_, ?_, ?_⟩ <;> simp [expandChain, h1, h2, h3, h4]
    | cons c2 cs2 =>
      have hcc : c.p2 = c2.p1 := (List.chain'_cons.mp hchain).1
      have htail : List.Chain' (fun a b => a.p2 = b.p1) (c2 :: cs2) :=
        (List.chain'_cons.mp hchain).2
      obtain ⟨h1, h2, h3, h4⟩ := hg c m
      obtain ⟨ih1, ih2, ih3, ih4⟩ := ih ((g c m).2) (by simp) htail
      have hstep : (expandChain g (c :: c2 :: cs2) m).1 =
          (g c m).1 ++ (expandChain g (c2 :: cs2) (g c m).2).1 := rfl
      refine ⟨?_, ?_, ?_, ?_⟩
      · rw [hstep]; simp [h1]
      · rw [hstep]
        refine h2.append ih2 ?_
        intro x hx y hy
        obtain ⟨vx, hvx, hpx⟩ := Option.map_eq_some'.mp h4
        have hyp1 : PySidedSegment.p1 y = c2.p1 := by
          have hh := ih3
          simp at hh
          obtain ⟨vy, hvy, hpy⟩ := hh
          rw [hvy] at hy
          cases hy
          exact hpy
        rw [hvx] at hx
        cases hx
        rw [hpx, hyp1, hcc]
      · rw [hstep, List.head?_append]
        obtain ⟨vx, hvx, hpx⟩ := Option.map_eq_some'.mp h3
        rw [hvx]
        simp [hpx]
      · rw [hstep, List.getLast?_append]
        have hne2 : (expandChain g (c2 :: cs2) (g c m).2).1 ≠ [] := ih1
        obtain ⟨w, hw⟩ := Option.isSome_iff_exists.mp (List.getLast?_isSome.mpr hne2)
        rw [hw]
        have : ((expandChain g (c2 :: cs2) (g c m).2).1.getLast?).map PySidedSegment.p2 =
            ((c2 :: cs2).getLast?).map PySidedSegment.p2 := ih4
        rw [hw] at this
        rw [List.getLast?_cons_cons]
        rw [← this]
        rfl

theorem fractalPy_invariants {f : PySidedSegment → ℕ → List PySidedSegment × ℕ}
    (hf : PyRuleOK f) :
    ∀ (d : ℕ) (e : PySidedSegment) (n : ℕ),
      (fractalPy f d e n).1 ≠ [] ∧
      List.Chain' (fun a b => a.p2 = b.p1) (fractalPy f d e n).1 ∧
      ((fractalPy f d e n).1.head?).map PySidedSegment.p1 = some e.p1 ∧
      ((fractalPy f d e n).1.getLast?).map PySidedSegment.p2 = some e.p2 := by
  intro d
  induction d with
  | zero =>
    intro e n
    refine ⟨by simp [fractalPy], by simp [fractalPy], by simp [fractalPy], by simp [fractalPy]⟩
  | succ d ih =>
    intro e n
    have hstep : fractalPy f (d + 1) e n =
        expandChain (fun c m => fractalPy f d c m) (f e n).1 (f e n).2 := rfl
    have hg : ∀ (c : PySidedSegment) (m : ℕ),
        (fractalPy f d c m).1 ≠ [] ∧
        List.Chain' (fun a b => a.p2 = b.p1) (fractalPy f d c m).1 ∧
        ((fractalPy f d c m).1.head?).map PySidedSegment.p1 = some c.p1 ∧
        ((fractalPy f d c m).1.getLast?).map PySidedSegment.p2 = some c.p2 :=
      fun c m => ih c m
    obtain ⟨e1, e2, e3, e4⟩ := expandChain_invariants hg (f e n).1 (f e n).2
      (hf.children_ne_nil e n) (hf.children_chained e n)
    rw [hstep]
    exact ⟨e1, e2, by rw [e3, hf.head_p1], by rw [e4, hf.last_p2]⟩

/-- Counterexample to claim C10 as stated: two separate `Point(0, 0)`
constructions yield objects (here with allocation identities 0 and 1)
whose coordinates are exactly equal, yet the `==` the program applies to
points is false on them — the "if" direction of the claimed equivalence
fails, because `Point` defines no `__eq__` and `==` falls back to
reference identity. -/
theorem point_eq_counterexample :
    pyPointEq ⟨0, 0, 0⟩ ⟨1, 0, 0⟩ = false ∧
    (PyPoint.mk 0 0 0).x = (PyPoint.mk 1 0 0).x ∧
    (PyPoint.mk 0 0 0).y = (PyPoint.mk 1 0 0).y :=
  ⟨rfl, rfl, rfl⟩

/-- Claim C10, amended: the program's `==` on points is reference
identity, not coordinate equality — `p == q` holds iff `p` and `q` are
the same object, so it implies exact coordinate equality (identical
objects share their coordinates) while equal coordinates do not imply
`p == q`.  Inside the flattening connectivity assertion this identity
test nevertheless succeeds on every expansion of the signature rule at
every depth and allocation state, because consecutive children share
their adjacent endpoint object; the shared object also gives the exact
coordinate equality the claim speaks about. -/
theorem point_eq_amended :
    (∀ p q : PyPoint, pyPointEq p q = true ↔ p.addr = q.addr) ∧
    (∀ (d : ℕ) (seg : PySidedSegment) (n : ℕ),
      List.Chain'
        (fun a b => pyPointEq a.p2 b.p1 = true ∧ a.p2.x = b.p1.x ∧ a.p2.y = b.p1.y)
        (fractalPy up_half_py d seg n).1) := by
  constructor
  · intro p q
    simp [pyPointEq]
  · intro d seg n
    refine ((fractalPy_invariants up_half_py_ruleOK d seg n).2.1).imp ?_
    intro a b h
    rw [h]
    simp [pyPointEq]

/-! ## Agreement of the fuelled integer-depth model with the ℕ-depth model -/
theorem mapM_loop_ok {α β : Type} {g : α → Except String β} {h : α → β} :
    ∀ (l : List α) (acc : List β), (∀ c ∈ l, g c = Except.ok (h c)) →
      List.mapM.loop g l acc = Except.ok (acc.reverse ++ l.map h) := by
  intro l
  induction l with
  | nil =>
    intro acc _
    show Except.ok acc.reverse = _
    simp
  | cons a t ih =>
    intro acc hall
    have ha := hall a (List.mem_cons_self a t)
    have ht := ih (h a :: acc) (fun c hc => hall c (List.mem_cons_of_mem a hc))
    rw [List.mapM.loop, ha]
    show List.mapM.loop g t (h a :: acc) = _
    rw [ht]
    simp

theorem mapM_ok {α β : Type} {g : α → Except String β} {h : α → β}
    (l : List α) (hall : ∀ c ∈ l, g c = Except.ok (h c)) :
    l.mapM g = Except.ok (l.map h) := by
  have := mapM_loop_ok l [] hall
  simpa [List.mapM] using this

theorem fractalFuel_agrees_fractal {α : Type} (f : α → List α) :
    ∀ (d fuel : ℕ) (e : α), d < fuel →
      fractalFuel f fuel e (d : ℤ) = Except.ok (fractal e f d) := by
  intro d
  induction d with
  | zero =>
    intro fuel e hlt
    obtain ⟨fuel2, rfl⟩ := Nat.exists_eq_succ_of_ne_zero (Nat.pos_iff_ne_zero.mp hlt)
    rw [fractalFuel]
    simp [fractal]
  | succ d ih =>
    intro fuel e hlt
    obtain ⟨fuel2, rfl⟩ : ∃ k, fuel = k + 1 :=
      ⟨fuel - 1, by omega⟩
    rw [fractalFuel, if_neg (by push_cast; omega)]
    have hcast : ((d : ℤ) + 1) - 1 = (d : ℤ) := by ring
    have hmap : (f e).mapM (fun c => fractalFuel f fuel2 c (((d : ℕ) + 1 : ℤ) - 1)) =
        Except.ok ((f e).map (fun c => fractal c f d)) := by
      refine mapM_ok (f e) ?_
      intro c _
      have : (((d : ℕ) + 1 : ℤ) - 1) = (d : ℤ) := by ring
      rw [this]
      exact ih fuel2 c (by omega)
    push_cast at hmap ⊢
    simp only [hmap]
    rfl

/-! ## Erasure of the object model onto the value model -/

def PyPoint.val (p : PyPoint) : Point := ⟨p.x, p.y⟩

def PySidedSegment.val (s : PySidedSegment) : SidedSegment := ⟨s.p1.val, s.p2.val, s.side⟩

theorem up_half_py_val (seg : PySidedSegment) (n : ℕ) :
    ((up_half_py seg n).1).map PySidedSegment.val =
      SidedSegment.up_half_across_and_down seg.val := by
  obtain ⟨⟨a1, x1, y1⟩, ⟨a2, x2, y2⟩, side⟩ := seg
  cases side <;>
    simp [up_half_py, SidedSegment.up_half_across_and_down, PySidedSegment.val,
      PyPoint.val, Point.ext_iff]

theorem expandChain_map_val {g : PySidedSegment → ℕ → List PySidedSegment × ℕ}
    (F : SidedSegment → List SidedSegment)
    (hg : ∀ c m, ((g c m).1).map PySidedSegment.val = F c.val) :
    ∀ (cs : List PySidedSegment) (n : ℕ),
      ((expandChain g cs n).1).map PySidedSegment.val =
        ((cs.map PySidedSegment.val).map F).flatten := by
  intro cs
  induction cs with
  | nil => intro n; simp [expandChain]
  | cons c cs ih =>
    intro n
    have hstep : (expandChain g (c :: cs) n).1 =
        (g c n).1 ++ (expandChain g cs (g c n).2).1 := rfl
    rw [hstep, List.map_append, hg, ih]
    simp

theorem fractalPy_up_val :
    ∀ (d : ℕ) (e : PySidedSegment) (n : ℕ),
      ((fractalPy up_half_py d e n).1).map PySidedSegment.val =
        fractal e.val SidedSegment.up_half_across_and_down d := by
  intro d
  induction d with
  | zero => intro e n; simp [fractalPy, fractal]
  | succ d ih =>
    intro e n
    have hstep : fractalPy up_half_py (d + 1) e n =
        expandChain (fun c m => fractalPy up_half_py d c m)
          (up_half_py e n).1 (up_half_py e n).2 := rfl
    rw [hstep,
      expandChain_map_val (fun s => fractal s SidedSegment.up_half_across_and_down d)
        (fun c m => ih c m),
      up_half_py_val]
    rfl
